import Mathlib

/-!
Shallow embedding of the `pack` binary packing library (src/pack.h).

Buffers (`std::string`) are modelled as `List Nat`, one entry per byte;
the `char → unsigned char` cast of the source is rendered as `% 256`.
Machine integers (`uintN_t` / `intN_t`) are modelled as `Nat` / `Int`
with explicit `% 2^N` reductions where the source's fixed-width
arithmetic can wrap.  Every `throw` becomes an `Except.error` carrying
the corresponding member of the error taxonomy; an `Except` result
paired with the unconsumed suffix of the buffer models the advancing
read cursor (`std::string::const_iterator& current`).
-/

namespace Pack

/-- The error taxonomy of `namespace exception` in src/pack.h.
`divByZero` is not a C++ exception: it marks the spot where the source
would evaluate `max / factor` with `factor == 0`, which is undefined
behaviour in C++; the embedding makes that case explicit.
`incompleteParse` models the spec's `incomplete_parse(consumed, total)`
(see `format.strictUnpack` below). -/
inductive Err where
  | invalidInput (msg : String)
  | outOfBounds (type : String)
  | overlong (max : Nat)
  | divByZero
  | incompleteParse (consumed total : Nat)
  deriving Repr, DecidableEq

/-- `enum class endian { little, big, native = little }`; `native` is the
little alternative. -/
inductive Endian where
  | little
  | big
  deriving Repr, DecidableEq

/-- A byte buffer (`std::string` used as a byte container). -/
abbrev Bytes := List Nat

deriving instance DecidableEq for Except

/-! ## Fixed-width integral codec (`struct integral`)

`integral::pack` copies the `data_size` value bytes with
`byte_copy<order != endian::native>`: identity copy for little endian,
reversed copy for big endian.  The value↔bytes correspondence of the
machine representation is little-endian base-256. -/

/-- The `n` little-endian base-256 bytes of `v` (the native memory image of
a `n`-byte unsigned integer). -/
def natLEBytes : Nat → Nat → Bytes
  | 0, _ => []
  | n + 1, v => v % 256 :: natLEBytes n (v / 256)

/-- Reassemble an unsigned integer from little-endian bytes (the
`byte_copy` into a zero-initialised `data_type temp` in
`integral::unpack`).  Entries are reduced `% 256` as the source reads
bytes through `char`. -/
def natFromLE : Bytes → Nat
  | [] => 0
  | b :: rest => b % 256 + 256 * natFromLE rest

/-- `integral<8*nbytes, sign::no, order>::pack`. -/
def integralPackU (nbytes : Nat) (order : Endian) (v : Nat) : Bytes :=
  match order with
  | .little => natLEBytes nbytes v
  | .big => (natLEBytes nbytes v).reverse

/-- `integral<8*nbytes, sign::no, order>::unpack`: requires `data_size`
bytes (`current + data_size <= end`), else `out_of_bounds("integer")`;
on success advances the cursor by `data_size`. -/
def integralUnpackU (nbytes : Nat) (order : Endian) (buf : Bytes) :
    Except Err (Nat × Bytes) :=
  if nbytes ≤ buf.length then
    let raw := buf.take nbytes
    let le := match order with | .little => raw | .big => raw.reverse
    .ok (natFromLE le, buf.drop nbytes)
  else
    .error (.outOfBounds "integer")

/-- Reinterpret `N` unsigned bits as a two's-complement signed value
(the memory image shared by `intN_t` and `uintN_t`). -/
def toSigned (N : Nat) (bits : Nat) : Int :=
  if bits < 2 ^ (N - 1) then (bits : Int) else (bits : Int) - 2 ^ N

/-- `integral<8*nbytes, sign::yes, order>::pack`: the two's-complement
memory image of the signed value, `% 2^N` capturing the wrap. -/
def integralPackS (nbytes : Nat) (order : Endian) (v : Int) : Bytes :=
  integralPackU nbytes order (v % ((2 ^ (8 * nbytes) : Nat) : Int)).toNat

/-- `integral<8*nbytes, sign::yes, order>::unpack`. -/
def integralUnpackS (nbytes : Nat) (order : Endian) (buf : Bytes) :
    Except Err (Int × Bytes) :=
  match integralUnpackU nbytes order buf with
  | .ok (u, rest) => .ok (toSigned (8 * nbytes) u, rest)
  | .error e => .error e

/-! ## Variable-length unsigned codec, little-endian continuation
(`compressed<sign::no, endian::little, max_size>`)

`block_size = 128`, `mask = 127`, `max = 2^max_size - 1`. -/

/-- The digit-emitting loop of `compressed<…>::pack`:
`while (value) { ret.push_back(value % block_size | block_size); value /= block_size; }`,
with an explicit iteration bound so the recursion is structural (each
iteration at least halves `value`, so `value` iterations always
suffice; `cDigits_unfold` below recovers the loop equation). -/
def cDigitsGo : Nat → Nat → Bytes
  | 0, _ => []
  | fuel + 1, v =>
    if v = 0 then []
    else (v % 128 ||| 128) :: cDigitsGo fuel (v / 128)

/-- The digit string emitted by the pack loop for `value = v`. -/
def cDigits (v : Nat) : Bytes :=
  cDigitsGo v v

/-- `ret.back() &= mask`: clear the continuation bit of the final byte. -/
def clearLast : Bytes → Bytes
  | [] => []
  | [b] => [b &&& 127]
  | b :: rest => b :: clearLast rest

/-- `compressed<sign::no, endian::little, N>::pack` (the algorithm never
inspects `N`: `value` is already a `data_type`). -/
def compressedPackLE (v : Nat) : Bytes :=
  if v = 0 then [0]
  else clearLast (cDigits v)

/-- The loop of `compressed<sign::no, endian::little, N>::unpack`, with
the `data_type factor, ret` loop state explicit.  `factor *= block_size`
and `ret += (value & mask) * factor` wrap at the declared width
(`% 2^N`).  When the source would evaluate the guard
`max / factor < (value & mask)` with `factor == 0` (possible because
`factor` wraps), the embedding returns `Err.divByZero`. -/
def cUnpackLE (N : Nat) : Bytes → Nat → Nat → Except Err (Nat × Bytes)
  | [], _, _ => .error (.outOfBounds "compressed integer")
  | b :: rest, factor, ret =>
    let value := b % 256
    if factor = 0 then .error .divByZero
    else if (2 ^ N - 1) / factor < value &&& 127 then .error (.overlong (2 ^ N - 1))
    else
      let ret2 := (ret + (value &&& 127) * factor) % 2 ^ N
      let factor2 := factor * 128 % 2 ^ N
      if value &&& 128 = 0 then .ok (ret2, rest)
      else cUnpackLE N rest factor2 ret2

/-- `compressed<sign::no, endian::little, N>::unpack` (entry:
`factor = 1, ret = 0`). -/
def compressedUnpackLE (N : Nat) (buf : Bytes) : Except Err (Nat × Bytes) :=
  cUnpackLE N buf 1 0

/-! ## Variable-length unsigned codec, big-endian continuation
(`compressed<sign::no, endian::big, max_size>`) -/

/-- `compressed<sign::no, endian::big, N>::pack`: build the little-endian
digit string, `std::reverse` it, then clear the continuation bit of the
final byte. -/
def compressedPackBE (v : Nat) : Bytes :=
  if v = 0 then [0]
  else clearLast (cDigits v).reverse

/-- The loop of `compressed<sign::no, endian::big, N>::unpack` with the
`data_type ret` accumulator explicit: guard `max / block_size < ret`,
then `ret = ret * block_size + (value & mask)` wrapping at the width. -/
def cUnpackBE (N : Nat) : Bytes → Nat → Except Err (Nat × Bytes)
  | [], _ => .error (.outOfBounds "compressed integer")
  | b :: rest, ret =>
    let value := b % 256
    if (2 ^ N - 1) / 128 < ret then .error (.overlong (2 ^ N - 1))
    else
      let ret2 := (ret * 128 % 2 ^ N + (value &&& 127)) % 2 ^ N
      if value &&& 128 = 0 then .ok (ret2, rest)
      else cUnpackBE N rest ret2

/-- `compressed<sign::no, endian::big, N>::unpack` (entry: `ret = 0`). -/
def compressedUnpackBE (N : Nat) (buf : Bytes) : Except Err (Nat × Bytes) :=
  cUnpackBE N buf 0

/-! ## Variable-length signed codec (`compressed<sign::yes, order, max_size>`)

`pack` computes `data_type zigzag = (value << 1) ^ (value >> (max_size - 1))`
on the signed `data_type`: on two's complement this is `2*v` for `v ≥ 0`
and `-2*v - 1` for `v < 0`, reduced at the width by the conversion to the
parent's unsigned `data_type`.

`unpack` computes `(zigzag >> 1) ^ (-(zigzag & 1))` where `zigzag` is the
SIGNED `data_type` holding the decoded unsigned value: `>> 1` is an
arithmetic shift (it keeps the top bit), and xor with `-(z & 1)`
(all-ones when `z` is odd) complements the `N` bits. -/

/-- The bits of `(value << 1) ^ (value >> (max_size - 1))` evaluated on a
two's-complement `N`-bit signed integer. -/
def zigzag (N : Nat) (v : Int) : Nat :=
  (if 0 ≤ v then (2 * v).toNat else (-2 * v - 1).toNat) % 2 ^ N

/-- The bits of `(zigzag >> 1) ^ (-(zigzag & 1))` evaluated on the signed
`data_type`:  `ashr` is the arithmetic right shift (top bit kept), and
odd `z` complements the `N`-bit result. -/
def unzigzag (N : Nat) (z : Nat) : Int :=
  let ashr := z / 2 + (if 2 ^ (N - 1) ≤ z then 2 ^ (N - 1) else 0)
  let bits := if z % 2 = 1 then 2 ^ N - 1 - ashr else ashr
  toSigned N bits

/-- `compressed<sign::yes, order, N>::pack`. -/
def compressedPackS (N : Nat) (order : Endian) (v : Int) : Bytes :=
  match order with
  | .little => compressedPackLE (zigzag N v)
  | .big => compressedPackBE (zigzag N v)

/-- `compressed<sign::yes, order, N>::unpack`. -/
def compressedUnpackS (N : Nat) (order : Endian) (buf : Bytes) :
    Except Err (Int × Bytes) :=
  match (match order with
         | .little => compressedUnpackLE N buf
         | .big => compressedUnpackBE N buf) with
  | .ok (z, rest) => .ok (unzigzag N z, rest)
  | .error e => .error e

/-! ## Padding strategies (`namespace padding`) -/

/-- `padding::none::add_padding`. -/
def padNoneAdd (value : Bytes) (length : Nat) : Except Err Bytes :=
  if value.length ≠ length then
    .error (.invalidInput ("Packed string should be of length " ++ toString length))
  else .ok value

/-- `padding::none::strip_padding` (identity). -/
def padNoneStrip (value : Bytes) : Bytes := value

/-- `std::string::find_last_not_of(character)`: the index of the last
byte different from `character`, if any. -/
def findLastNotOf (c : Nat) : Bytes → Option Nat
  | [] => none
  | b :: rest =>
    match findLastNotOf c rest with
    | some i => some (i + 1)
    | none => if b ≠ c then some 0 else none

/-- `padding::byte_padder<character>::add_padding`. -/
def bytePadderAdd (c : Nat) (value : Bytes) (length : Nat) : Except Err Bytes :=
  if value.length = length then .ok value
  else if length < value.length then
    .error (.invalidInput "Can't pack string longer than fixed length")
  else .ok (value ++ List.replicate (length - value.length) c)

/-- `padding::byte_padder<character>::strip_padding`.  The middle branch
(`value.begin() + end == value.end()`) compares the index of an existing
byte with the size, so it is never taken; it is kept for fidelity. -/
def bytePadderStrip (c : Nat) (value : Bytes) : Bytes :=
  match findLastNotOf c value with
  | none => []
  | some e =>
    if e = value.length then value
    else value.take (e + 1)

/-! ## The common codec shape, and the remaining codecs

A codec pairs `pack` with a cursor-advancing `unpack`; the unconsumed
suffix of the buffer stands for the advanced iterator. -/

structure Codec (α : Type) where
  pack : α → Except Err Bytes
  unpack : Bytes → Except Err (α × Bytes)

/-- `integral<8*nbytes, sign::no, order>` as a codec. -/
def integralU (nbytes : Nat) (order : Endian) : Codec Nat :=
  ⟨fun v => .ok (integralPackU nbytes order v), integralUnpackU nbytes order⟩

/-- `integral<8*nbytes, sign::yes, order>` as a codec. -/
def integralS (nbytes : Nat) (order : Endian) : Codec Int :=
  ⟨fun v => .ok (integralPackS nbytes order v), integralUnpackS nbytes order⟩

/-- `compressed<sign::no, order, N>` as a codec. -/
def compressedU (N : Nat) (order : Endian) : Codec Nat :=
  ⟨fun v => .ok (match order with
                 | .little => compressedPackLE v
                 | .big => compressedPackBE v),
   fun buf => match order with
              | .little => compressedUnpackLE N buf
              | .big => compressedUnpackBE N buf⟩

/-- `compressed<sign::yes, order, N>` as a codec. -/
def compressedS (N : Nat) (order : Endian) : Codec Int :=
  ⟨fun v => .ok (compressedPackS N order v), compressedUnpackS N order⟩

/-- A padding strategy: the pair (`add_padding`, `strip_padding`). -/
structure Padding where
  add : Bytes → Nat → Except Err Bytes
  strip : Bytes → Bytes

/-- `padding::none`. -/
def padNone : Padding := ⟨padNoneAdd, padNoneStrip⟩

/-- `padding::byte_padder<character>`. -/
def bytePadder (c : Nat) : Padding := ⟨bytePadderAdd c, bytePadderStrip c⟩

/-- `padding::null = byte_padder<0>`. -/
def padNull : Padding := bytePadder 0

/-- `padding::space = byte_padder<32>`. -/
def padSpace : Padding := bytePadder 32

/-- `fixed_string<length, pad>`: pack delegates to `add_padding`; unpack
requires `length` bytes (else `out_of_bounds("fixed_string")`), consumes
them and applies `strip_padding`. -/
def fixedString (length : Nat) (pad : Padding) : Codec Bytes :=
  ⟨fun value => pad.add value length,
   fun buf =>
     if length ≤ buf.length then
       .ok (pad.strip (buf.take length), buf.drop length)
     else .error (.outOfBounds "fixed_string")⟩

/-- `varchar<length_encoder>`: pack emits the encoded length followed by
the raw bytes; unpack decodes the length `L`, then requires `L` bytes
(else `out_of_bounds("varchar")`) and consumes them. -/
def varchar (lenc : Codec Nat) : Codec Bytes :=
  ⟨fun value =>
     match lenc.pack value.length with
     | .ok lenBytes => .ok (lenBytes ++ value)
     | .error e => .error e,
   fun buf =>
     match lenc.unpack buf with
     | .ok (length, mid) =>
       if length ≤ mid.length then .ok (mid.take length, mid.drop length)
       else .error (.outOfBounds "varchar")
     | .error e => .error e⟩

/-- The element loop of `sequence<…>::pack`:
`for (elem : elements) ret += element_encoder::pack(elem)`. -/
def seqPackLoop (e : Codec α) : List α → Bytes → Except Err Bytes
  | [], acc => .ok acc
  | x :: xs, acc =>
    match e.pack x with
    | .ok piece => seqPackLoop e xs (acc ++ piece)
    | .error err => .error err

/-- The element loop of `sequence<…>::unpack`:
`while (length--) pieces.push_back(element_encoder::unpack(current, end))`. -/
def seqUnpackLoop (e : Codec α) : Nat → Bytes → Except Err (List α × Bytes)
  | 0, buf => .ok ([], buf)
  | n + 1, buf =>
    match e.unpack buf with
    | .ok (x, rest) =>
      match seqUnpackLoop e n rest with
      | .ok (xs, rest2) => .ok (x :: xs, rest2)
      | .error err => .error err
    | .error err => .error err

/-- `sequence<element_encoder, length_encoder>` as a codec. -/
def sequence (e : Codec α) (lenc : Codec Nat) : Codec (List α) :=
  ⟨fun elements =>
     match lenc.pack elements.length with
     | .ok ret => seqPackLoop e elements ret
     | .error err => .error err,
   fun buf =>
     match lenc.unpack buf with
     | .ok (length, rest) => seqUnpackLoop e length rest
     | .error err => .error err⟩

/-! ## The format combinator (`template<typename... elements> class format`)

`follow_up` recursion over the element list is mirrored by the
cons/nil composition below: `pack` concatenates the head's output with
the tail's, and `unpack` runs the head on the incoming cursor, then the
tail on the cursor the head left behind. -/

/-- The empty tail of a format (the terminal `follow_up` case:
contributes no bytes, consumes no bytes). -/
def formatNil : Codec Unit :=
  ⟨fun _ => .ok [], fun buf => .ok ((), buf)⟩

/-- `follow_up<head_type, tail_types...>`: head then tail. -/
def formatCons (c : Codec α) (f : Codec β) : Codec (α × β) :=
  ⟨fun vb =>
     match c.pack vb.1 with
     | .ok h =>
       match f.pack vb.2 with
       | .ok t => .ok (h ++ t)
       | .error e => .error e
     | .error e => .error e,
   fun buf =>
     match c.unpack buf with
     | .ok (a, mid) =>
       match f.unpack mid with
       | .ok (b, rest) => .ok ((a, b), rest)
       | .error e => .error e
     | .error e => .error e⟩

/-- `current_iterator`: contributes nothing to pack and yields the
current cursor (the unconsumed suffix) without consuming bytes. -/
def currentIterator : Codec Bytes :=
  ⟨fun _ => .ok [], fun buf => .ok (buf, buf)⟩

/-- `format<elements...>::unpack(packed)`: start the cursor at the
beginning and run the element codecs; the final cursor is discarded. -/
def formatUnpack (c : Codec α) (packed : Bytes) : Except Err α :=
  match c.unpack packed with
  | .ok (v, _) => .ok v
  | .error e => .error e

/-- Modelled from the spec: the strict `format::unpack` variant and the
`incomplete_parse` exception are absent from src/pack.h (the example
driver includes a `packing.h` header that is not among the sources).
Spec section 4.11: "strict unpack(buffer): same as unpack, but raise
`incomplete_parse(consumed, total)` if the cursor has not reached the
buffer end after all codecs have run"; section 7: `incomplete_parse`
"carries (bytes_consumed, total_bytes)". -/
def strictUnpack (c : Codec α) (packed : Bytes) : Except Err α :=
  match c.unpack packed with
  | .ok (v, rest) =>
    if rest = [] then .ok v
    else .error (.incompleteParse (packed.length - rest.length) packed.length)
  | .error e => .error e

/-- The format used by the example driver (src/example.C):
`format<integral<16, sign::no, endian::big>, fixed_string<2, padding::space>,
compressed<sign::no, endian::little>, varchar<compressed<>>>`
(the default `compressed<>` is unsigned little-endian at width 64, and the
default varchar length encoder in that driver is `compressed<>`). -/
def exampleFormat : Codec (Nat × (Bytes × (Nat × (Bytes × Unit)))) :=
  formatCons (integralU 2 .big) (formatCons (fixedString 2 padSpace)
    (formatCons (compressedU 64 .little)
      (formatCons (varchar (compressedU 64 .little)) formatNil)))

/-! ## Specification-side helpers used only to state and prove theorems -/

/-- The base-128 digits of `v`, least significant first, without
continuation bits (`cDigits` minus the `| block_size`). -/
def payloadDigits (v : Nat) : Bytes :=
  if v = 0 then [] else v % 128 :: payloadDigits (v / 128)
termination_by v
decreasing_by exact Nat.div_lt_self (Nat.pos_of_ne_zero (by assumption)) (by decide)

/-- The value of a most-significant-first digit string, folded onto an
accumulator (`ret = ret * 128 + digit` per step). -/
def digitsVal (acc : Nat) (l : Bytes) : Nat :=
  l.foldl (fun a d => a * 128 + d) acc

/-- The value of a least-significant-first base-128 digit string. -/
def fromDigitsLE : Bytes → Nat
  | [] => 0
  | d :: rest => d + 128 * fromDigitsLE rest

/-- The codec packs `v` to some byte string whose decode returns `v`
exactly, leaving any following bytes as the unconsumed tail. -/
def RoundTrips (c : Codec α) (v : α) : Prop :=
  ∃ out, c.pack v = .ok out ∧ ∀ extra, c.unpack (out ++ extra) = .ok (v, extra)

/-- A successful unpack consumed a contiguous prefix of the buffer: the
returned cursor is a suffix of the incoming buffer (so the cursor never
rewinds, and every consumed range starts at the incoming position). -/
def Consumes (unp : Bytes → Except Err (α × Bytes)) : Prop :=
  ∀ buf v rest, unp buf = .ok (v, rest) → ∃ pre, buf = pre ++ rest

/-! # Theorems

First the general lemma library about the embedded operations, then one
theorem per specification claim. -/

/-! ## Unfolding the fuel-based pack loop -/

theorem cDigitsGo_zero (fuel : Nat) : cDigitsGo fuel 0 = [] := by
  cases fuel with
  | zero => rfl
  | succ f => rw [cDigitsGo, if_pos rfl]

theorem cDigitsGo_congr (fuel1 : Nat) :
    ∀ fuel2 v, v ≤ fuel1 → v ≤ fuel2 → cDigitsGo fuel1 v = cDigitsGo fuel2 v := by
  induction fuel1 with
  | zero =>
    intro fuel2 v h1 _
    have hv : v = 0 := by omega
    subst hv
    rw [cDigitsGo_zero, cDigitsGo_zero]
  | succ f1 ih =>
    intro fuel2 v h1 h2
    by_cases hv : v = 0
    · subst hv
      rw [cDigitsGo_zero, cDigitsGo_zero]
    · cases fuel2 with
      | zero => omega
      | succ f2 =>
        rw [cDigitsGo, cDigitsGo, if_neg hv, if_neg hv]
        have hdiv : v / 128 < v := Nat.div_lt_self (Nat.pos_of_ne_zero hv) (by decide)
        rw [ih f2 (v / 128) (by omega) (by omega)]

theorem cDigits_unfold (v : Nat) :
    cDigits v = if v = 0 then [] else (v % 128 ||| 128) :: cDigits (v / 128) := by
  by_cases hv : v = 0
  · subst hv
    rw [if_pos rfl, cDigits, cDigitsGo_zero]
  · rw [if_neg hv]
    obtain ⟨w, rfl⟩ : ∃ w, v = w + 1 := ⟨v - 1, by omega⟩
    show cDigitsGo (w + 1) (w + 1) =
      ((w + 1) % 128 ||| 128) :: cDigitsGo ((w + 1) / 128) ((w + 1) / 128)
    rw [cDigitsGo, if_neg hv]
    have hdiv : (w + 1) / 128 < w + 1 := Nat.div_lt_self (by omega) (by decide)
    rw [cDigitsGo_congr w ((w + 1) / 128) ((w + 1) / 128) (by omega) (by omega)]

/-! ## Fixed-width integer lemmas -/

theorem natLEBytes_length (n v : Nat) : (natLEBytes n v).length = n := by
  induction n generalizing v with
  | zero => rfl
  | succ n ih => simp [natLEBytes, ih]

theorem natFromLE_natLEBytes (n v : Nat) :
    natFromLE (natLEBytes n v) = v % 256 ^ n := by
  induction n generalizing v with
  | zero => simp [natLEBytes, natFromLE, Nat.mod_one]
  | succ n ih =>
    rw [natLEBytes, natFromLE, ih]
    have h : (256 : Nat) ^ (n + 1) = 256 * 256 ^ n := by ring
    rw [h, Nat.mod_mul]
    omega

theorem pow_two_eq_pow256 (n : Nat) : (2 : Nat) ^ (8 * n) = 256 ^ n := by
  rw [pow_mul]; norm_num

theorem integralU_roundtrip (nbytes : Nat) (order : Endian) (v : Nat)
    (hv : v < 2 ^ (8 * nbytes)) (extra : Bytes) :
    integralUnpackU nbytes order (integralPackU nbytes order v ++ extra) =
      .ok (v, extra) := by
  have hval : v % 256 ^ nbytes = v := by
    apply Nat.mod_eq_of_lt; rwa [← pow_two_eq_pow256]
  cases order with
  | little =>
    have htake := List.take_left (natLEBytes nbytes v) extra
    have hdrop := List.drop_left (natLEBytes nbytes v) extra
    rw [natLEBytes_length] at htake hdrop
    show integralUnpackU nbytes .little (natLEBytes nbytes v ++ extra) = _
    unfold integralUnpackU
    rw [if_pos (by simp [natLEBytes_length])]
    simp only [htake, hdrop, natFromLE_natLEBytes, hval]
  | big =>
    have htake := List.take_left (natLEBytes nbytes v).reverse extra
    have hdrop := List.drop_left (natLEBytes nbytes v).reverse extra
    rw [List.length_reverse, natLEBytes_length] at htake hdrop
    show integralUnpackU nbytes .big ((natLEBytes nbytes v).reverse ++ extra) = _
    unfold integralUnpackU
    rw [if_pos (by simp [natLEBytes_length])]
    simp only [htake, hdrop, List.reverse_reverse, natFromLE_natLEBytes, hval]

theorem toSigned_of_int_emod (N : Nat) (v : Int) (hN : 0 < N)
    (hlo : -(((2 ^ (N - 1) : Nat) : Int)) ≤ v) (hhi : v < ((2 ^ (N - 1) : Nat) : Int)) :
    toSigned N (v % ((2 ^ N : Nat) : Int)).toNat = v := by
  have hb : (((2 ^ (N - 1) : Nat)) : Int) = (2 : Int) ^ (N - 1) := by push_cast; ring
  have hm : (((2 ^ N : Nat)) : Int) = (2 : Int) ^ N := by push_cast; ring
  have hsplit : (2 : Int) ^ N = 2 ^ (N - 1) * 2 := by
    have h : N = (N - 1) + 1 := by omega
    rw [h, pow_succ]
    simp
  unfold toSigned
  rcases le_or_lt 0 v with hv | hv
  · have hmod : v % ((2 ^ N : Nat) : Int) = v := by
      apply Int.emod_eq_of_lt hv
      omega
    rw [hmod, if_pos (by omega)]
    omega
  · have hmod : v % ((2 ^ N : Nat) : Int) = v + ((2 ^ N : Nat) : Int) := by
      have h1 : (v + ((2 ^ N : Nat) : Int) * 1) % ((2 ^ N : Nat) : Int) =
          v % ((2 ^ N : Nat) : Int) := Int.add_mul_emod_self_left v (((2 ^ N : Nat) : Int)) 1
      rw [mul_one] at h1
      rw [← h1]
      apply Int.emod_eq_of_lt (by omega) (by omega)
    rw [hmod, if_neg (by omega)]
    omega

theorem integralS_roundtrip (nbytes : Nat) (order : Endian) (v : Int)
    (hn : 0 < nbytes)
    (hlo : -(((2 ^ (8 * nbytes - 1) : Nat) : Int)) ≤ v)
    (hhi : v < ((2 ^ (8 * nbytes - 1) : Nat) : Int)) (extra : Bytes) :
    integralUnpackS nbytes order (integralPackS nbytes order v ++ extra) =
      .ok (v, extra) := by
  have hN : 0 < 8 * nbytes := by omega
  have hbits : (v % ((2 ^ (8 * nbytes) : Nat) : Int)).toNat < 2 ^ (8 * nbytes) := by
    have hpos : (0 : Int) < ((2 ^ (8 * nbytes) : Nat) : Int) := by positivity
    have h1 := Int.emod_lt_of_pos v hpos
    have h2 := Int.emod_nonneg v (by omega : ((2 ^ (8 * nbytes) : Nat) : Int) ≠ 0)
    omega
  rw [integralPackS, integralUnpackS, integralU_roundtrip _ _ _ hbits]
  dsimp only
  rw [toSigned_of_int_emod _ _ hN hlo hhi]

/-! ## Bit-operation bridges (the source's `& mask`, `| block_size`,
`& block_size` on byte values) -/

theorem lor128_and127 : ∀ a < 128, (a ||| 128) &&& 127 = a := by decide
theorem lor128_and128 : ∀ a < 128, (a ||| 128) &&& 128 = 128 := by decide
theorem lor128_lt256 : ∀ a < 128, (a ||| 128) < 256 := by decide
theorem lor128_eq_add : ∀ a < 128, (a ||| 128) = a + 128 := by decide
theorem and127_of_lt : ∀ a < 128, a &&& 127 = a := by decide
theorem and128_of_lt : ∀ a < 128, a &&& 128 = 0 := by decide

/-! ## Variable-length unsigned integer lemmas -/

theorem cDigits_ne_nil (v : Nat) (hv : v ≠ 0) : cDigits v ≠ [] := by
  rw [cDigits_unfold, if_neg hv]
  simp

theorem clearLast_cons_of_ne_nil (x : Nat) (l : Bytes) (hl : l ≠ []) :
    clearLast (x :: l) = x :: clearLast l := by
  cases l with
  | nil => exact absurd rfl hl
  | cons a t => rfl

theorem cUnpackLE_pack_pos (N : Nat) (v : Nat) (hv : 0 < v) :
    ∀ factor ret extra, 0 < factor → ret + v * factor < 2 ^ N →
      cUnpackLE N (clearLast (cDigits v) ++ extra) factor ret =
        .ok (ret + v * factor, extra) := by
  induction v using Nat.strong_induction_on with
  | _ v ih =>
  intro factor ret extra hfac hbound
  have hvne : v ≠ 0 := Nat.pos_iff_ne_zero.mp hv
  have hmod : v % 128 < 128 := Nat.mod_lt v (by decide)
  rw [cDigits_unfold, if_neg hvne]
  rcases Nat.eq_zero_or_pos (v / 128) with hq | hq
  · have hvlt : v < 128 := by
      rcases Nat.lt_or_ge v 128 with h | h
      · exact h
      · exact absurd hq (by
          have := Nat.div_le_div_right (c := 128) h
          simp at this
          omega)
    rw [cDigits_unfold, if_pos hq]
    show cUnpackLE N ([(v % 128 ||| 128) &&& 127] ++ extra) factor ret = _
    rw [lor128_and127 _ hmod]
    have hv128 : v % 128 = v := Nat.mod_eq_of_lt hvlt
    rw [hv128]
    show cUnpackLE N (v :: extra) factor ret = _
    rw [cUnpackLE]
    have hv256 : v % 256 = v := Nat.mod_eq_of_lt (by omega)
    simp only [hv256, and127_of_lt _ hvlt, and128_of_lt _ hvlt]
    rw [if_neg (Nat.ne_of_gt hfac)]
    have hguard : ¬ ((2 ^ N - 1) / factor < v) := by
      have h1 : v * factor ≤ 2 ^ N - 1 := by omega
      have := (Nat.le_div_iff_mul_le hfac).mpr h1
      omega
    rw [if_neg hguard]
    have hnowrap : (ret + v * factor) % 2 ^ N = ret + v * factor :=
      Nat.mod_eq_of_lt (by omega)
    simp [hnowrap]
  · have h128le : 128 ≤ v := by
      by_contra h
      push_neg at h
      rw [Nat.div_eq_of_lt h] at hq
      omega
    rw [clearLast_cons_of_ne_nil _ _ (cDigits_ne_nil _ (Nat.pos_iff_ne_zero.mp hq))]
    show cUnpackLE N ((v % 128 ||| 128) :: (clearLast (cDigits (v / 128)) ++ extra)) factor ret = _
    rw [cUnpackLE]
    have hb256 : (v % 128 ||| 128) % 256 = v % 128 ||| 128 :=
      Nat.mod_eq_of_lt (lor128_lt256 _ hmod)
    simp only [hb256, lor128_and127 _ hmod, lor128_and128 _ hmod]
    rw [if_neg (Nat.ne_of_gt hfac)]
    have hvf : v * factor ≤ 2 ^ N - 1 := by omega
    have hguard : ¬ ((2 ^ N - 1) / factor < v % 128) := by
      have h1 : v % 128 * factor ≤ 2 ^ N - 1 := by
        calc v % 128 * factor ≤ v * factor :=
              Nat.mul_le_mul_right factor (Nat.mod_le v 128)
        _ ≤ 2 ^ N - 1 := hvf
      have := (Nat.le_div_iff_mul_le hfac).mpr h1
      omega
    rw [if_neg hguard]
    rw [if_neg (by omega : ¬ (128 : Nat) = 0)]
    have hdecomp : v = 128 * (v / 128) + v % 128 := (Nat.div_add_mod v 128).symm
    have hmodsmall : ret + v % 128 * factor < 2 ^ N := by
      have : v % 128 * factor ≤ v * factor :=
        Nat.mul_le_mul_right factor (Nat.mod_le v 128)
      omega
    have hfacsmall : factor * 128 < 2 ^ N := by
      have h1 : factor * 128 ≤ v * factor := by
        calc factor * 128 = 128 * factor := by ring
        _ ≤ v * factor := Nat.mul_le_mul_right factor h128le
      omega
    have hr2 : (ret + v % 128 * factor) % 2 ^ N = ret + v % 128 * factor :=
      Nat.mod_eq_of_lt hmodsmall
    have hf2 : factor * 128 % 2 ^ N = factor * 128 := Nat.mod_eq_of_lt hfacsmall
    rw [hr2, hf2]
    rw [ih (v / 128) (Nat.div_lt_self hv (by decide)) hq (factor * 128)
        (ret + v % 128 * factor) extra (by positivity)
        (by nlinarith [hdecomp])]
    congr 2
    nlinarith [hdecomp]

theorem compressedLE_roundtrip (N v : Nat) (hv : v < 2 ^ N) (extra : Bytes) :
    compressedUnpackLE N (compressedPackLE v ++ extra) = .ok (v, extra) := by
  by_cases h0 : v = 0
  · subst h0
    show cUnpackLE N (([0] : Bytes) ++ extra) 1 0 = _
    rw [List.singleton_append, cUnpackLE]
    norm_num
  · have hvpos : 0 < v := Nat.pos_of_ne_zero h0
    rw [compressedPackLE, if_neg h0, compressedUnpackLE,
      cUnpackLE_pack_pos N v hvpos 1 0 extra (by decide) (by omega)]
    simp

theorem cDigits_eq_map (v : Nat) :
    cDigits v = (payloadDigits v).map (· ||| 128) := by
  induction v using Nat.strong_induction_on with
  | _ v ih =>
  by_cases hv : v = 0
  · rw [cDigits_unfold, payloadDigits, if_pos hv, if_pos hv]
    rfl
  · rw [cDigits_unfold, payloadDigits, if_neg hv, if_neg hv, List.map_cons,
      ih (v / 128) (Nat.div_lt_self (Nat.pos_of_ne_zero hv) (by decide))]

theorem payloadDigits_lt (v : Nat) : ∀ d ∈ payloadDigits v, d < 128 := by
  induction v using Nat.strong_induction_on with
  | _ v ih =>
  by_cases hv : v = 0
  · rw [payloadDigits, if_pos hv]
    simp
  · rw [payloadDigits, if_neg hv]
    intro d hd
    rcases List.mem_cons.mp hd with h | h
    · subst h; exact Nat.mod_lt v (by decide)
    · exact ih (v / 128) (Nat.div_lt_self (Nat.pos_of_ne_zero hv) (by decide)) d h

theorem digitsVal_append_singleton (acc : Nat) (l : Bytes) (d : Nat) :
    digitsVal acc (l ++ [d]) = digitsVal acc l * 128 + d := by
  unfold digitsVal
  rw [List.foldl_append]
  rfl

theorem digitsVal_payload_reverse (v : Nat) :
    digitsVal 0 ((payloadDigits v).reverse) = v := by
  induction v using Nat.strong_induction_on with
  | _ v ih =>
  by_cases hv : v = 0
  · rw [payloadDigits, if_pos hv]
    simp [digitsVal, hv]
  · rw [payloadDigits, if_neg hv, List.reverse_cons, digitsVal_append_singleton,
      ih (v / 128) (Nat.div_lt_self (Nat.pos_of_ne_zero hv) (by decide))]
    omega

theorem digitsVal_ge (l : Bytes) (acc : Nat) :
    acc * 128 ^ l.length ≤ digitsVal acc l := by
  induction l generalizing acc with
  | nil => simp [digitsVal]
  | cons d t iht =>
    have h1 : (acc * 128 + d) * 128 ^ t.length ≤ digitsVal (acc * 128 + d) t := iht _
    have h2 : acc * 128 ^ (d :: t).length ≤ (acc * 128 + d) * 128 ^ t.length := by
      simp only [List.length_cons, pow_succ]
      nlinarith [pow_pos (by decide : (0:Nat) < 128) t.length]
    calc acc * 128 ^ (d :: t).length ≤ (acc * 128 + d) * 128 ^ t.length := h2
    _ ≤ digitsVal (acc * 128 + d) t := h1
    _ = digitsVal acc (d :: t) := rfl

theorem clearLast_append_singleton (l : Bytes) (b : Nat) :
    clearLast (l ++ [b]) = l ++ [b &&& 127] := by
  induction l with
  | nil => rfl
  | cons x xs ih =>
    have hne : xs ++ [b] ≠ [] := by simp
    show clearLast (x :: (xs ++ [b])) = _
    cases h : xs ++ [b] with
    | nil => exact absurd h hne
    | cons a t =>
      rw [← h]
      have hcc : clearLast (x :: (xs ++ [b])) = x :: clearLast (xs ++ [b]) := by
        rw [h]; rfl
      rw [hcc, ih]
      rfl

theorem cUnpackBE_digits (N : Nat) (ds : List Nat) :
    ∀ d0 ret extra, (∀ d ∈ ds, d < 128) → d0 < 128 →
      digitsVal ret (ds ++ [d0]) < 2 ^ N →
      cUnpackBE N ((ds.map (· ||| 128)) ++ ([d0] ++ extra)) ret =
        .ok (digitsVal ret (ds ++ [d0]), extra) := by
  induction ds with
  | nil =>
    intro d0 ret extra _ hd0 hbound
    have hval : digitsVal ret ([] ++ [d0]) = ret * 128 + d0 := rfl
    rw [hval] at hbound ⊢
    show cUnpackBE N (d0 :: extra) ret = _
    rw [cUnpackBE]
    have h256 : d0 % 256 = d0 := Nat.mod_eq_of_lt (by omega)
    simp only [h256, and127_of_lt _ hd0, and128_of_lt _ hd0]
    have hguard : ¬ ((2 ^ N - 1) / 128 < ret) := by
      have h1 : ret * 128 ≤ 2 ^ N - 1 := by omega
      have := (Nat.le_div_iff_mul_le (by decide : (0:Nat) < 128)).mpr h1
      omega
    rw [if_neg hguard]
    have hm1 : ret * 128 % 2 ^ N = ret * 128 := Nat.mod_eq_of_lt (by omega)
    have hm2 : (ret * 128 + d0) % 2 ^ N = ret * 128 + d0 := Nat.mod_eq_of_lt (by omega)
    simp [hm1, hm2]
  | cons d t ih =>
    intro d0 ret extra hds hd0 hbound
    have hd : d < 128 := hds d (by simp)
    have hrec : digitsVal (ret * 128 + d) (t ++ [d0]) = digitsVal ret ((d :: t) ++ [d0]) := rfl
    show cUnpackBE N ((d ||| 128) :: (t.map (· ||| 128) ++ ([d0] ++ extra))) ret = _
    rw [cUnpackBE]
    have h256 : (d ||| 128) % 256 = d ||| 128 := Nat.mod_eq_of_lt (lor128_lt256 _ hd)
    simp only [h256, lor128_and127 _ hd, lor128_and128 _ hd]
    have hge : (ret * 128 + d) * 128 ^ (t ++ [d0]).length ≤ digitsVal ret ((d :: t) ++ [d0]) := by
      rw [← hrec]
      exact digitsVal_ge _ _
    have hlen : 1 ≤ 128 ^ (t ++ [d0]).length := Nat.one_le_pow _ _ (by decide)
    have hr2lt : ret * 128 + d < 2 ^ N := by
      have := hbound
      nlinarith
    have hguard : ¬ ((2 ^ N - 1) / 128 < ret) := by
      have h1 : ret * 128 ≤ 2 ^ N - 1 := by omega
      have := (Nat.le_div_iff_mul_le (by decide : (0:Nat) < 128)).mpr h1
      omega
    rw [if_neg hguard]
    have hm1 : ret * 128 % 2 ^ N = ret * 128 := Nat.mod_eq_of_lt (by omega)
    have hm2 : (ret * 128 + d) % 2 ^ N = ret * 128 + d := Nat.mod_eq_of_lt hr2lt
    rw [hm1, hm2]
    rw [if_neg (by omega : ¬ (128:Nat) = 0)]
    rw [ih d0 (ret * 128 + d) extra (fun x hx => hds x (by simp [hx])) hd0
      (by rw [hrec]; exact hbound)]
    rw [hrec]

theorem compressedBE_roundtrip (N v : Nat) (hv : v < 2 ^ N) (extra : Bytes) :
    compressedUnpackBE N (compressedPackBE v ++ extra) = .ok (v, extra) := by
  by_cases h0 : v = 0
  · subst h0
    show cUnpackBE N (([0] : Bytes) ++ extra) 0 = _
    rw [List.singleton_append, cUnpackBE]
    norm_num
  · have hvpos : 0 < v := Nat.pos_of_ne_zero h0
    have hmod : v % 128 < 128 := Nat.mod_lt v (by decide)
    have hpack : compressedPackBE v =
        ((payloadDigits (v / 128)).reverse).map (· ||| 128) ++ [v % 128] := by
      rw [compressedPackBE, if_neg h0, cDigits_eq_map, payloadDigits, if_neg h0]
      rw [List.map_cons, List.reverse_cons, clearLast_append_singleton]
      rw [lor128_and127 _ hmod, List.map_reverse]
    rw [hpack]
    have hassoc : (((payloadDigits (v / 128)).reverse).map (· ||| 128) ++ [v % 128]) ++ extra =
        ((payloadDigits (v / 128)).reverse).map (· ||| 128) ++ ([v % 128] ++ extra) := by
      simp
    rw [hassoc]
    have hds : ∀ d ∈ (payloadDigits (v / 128)).reverse, d < 128 := by
      intro d hd
      exact payloadDigits_lt (v / 128) d (List.mem_reverse.mp hd)
    have hval : digitsVal 0 ((payloadDigits (v / 128)).reverse ++ [v % 128]) = v := by
      rw [digitsVal_append_singleton, digitsVal_payload_reverse]
      omega
    rw [compressedUnpackBE, cUnpackBE_digits N _ _ _ _ hds hmod (by rw [hval]; exact hv), hval]

/-! ## Padding and string codec lemmas -/

theorem findLastNotOf_replicate (c k : Nat) :
    findLastNotOf c (List.replicate k c) = none := by
  induction k with
  | zero => rfl
  | succ k ih =>
    rw [List.replicate_succ, findLastNotOf, ih]
    simp

theorem findLastNotOf_append_replicate (c : Nat) (s : Bytes) (k : Nat) :
    findLastNotOf c (s ++ List.replicate k c) = findLastNotOf c s := by
  induction s with
  | nil => simp [findLastNotOf_replicate, findLastNotOf]
  | cons b t ih =>
    rw [List.cons_append, findLastNotOf, ih, findLastNotOf]

theorem findLastNotOf_getLast (c : Nat) (s : Bytes) (b : Nat)
    (hb : s.getLast? = some b) (hbc : b ≠ c) :
    findLastNotOf c s = some (s.length - 1) := by
  induction s with
  | nil => simp at hb
  | cons x t ih =>
    cases t with
    | nil =>
      simp only [List.getLast?_singleton, Option.some.injEq] at hb
      subst hb
      simp [findLastNotOf, hbc]
    | cons y t2 =>
      rw [List.getLast?_cons_cons] at hb
      rw [findLastNotOf, ih hb]
      dsimp only
      have h2 : (y :: t2).length - 1 + 1 = (x :: y :: t2).length - 1 := by
        simp only [List.length_cons]
        omega
      rw [h2]

theorem getLast?_ne_none_of_ne_nil {s : Bytes} (h : s.getLast? = none) : s = [] := by
  cases s with
  | nil => rfl
  | cons x t => simp [List.getLast?_eq_none_iff] at h

theorem bytePadderStrip_append_replicate (c : Nat) (s : Bytes) (k : Nat)
    (hlast : ∀ b, s.getLast? = some b → b ≠ c) :
    bytePadderStrip c (s ++ List.replicate k c) = s := by
  rcases hs : s.getLast? with _ | b
  · have : s = [] := getLast?_ne_none_of_ne_nil hs
    subst this
    rw [bytePadderStrip]
    simp [findLastNotOf_replicate]
  · have hbc : b ≠ c := hlast b hs
    have hne : s ≠ [] := by
      intro h
      subst h
      simp at hs
    have hpos : 1 ≤ s.length := List.length_pos.mpr hne
    rw [bytePadderStrip, findLastNotOf_append_replicate,
      findLastNotOf_getLast c s b hs hbc]
    have hlen : (s ++ List.replicate k c).length = s.length + k := by simp
    have hcond : s.length - 1 ≠ (s ++ List.replicate k c).length := by
      rw [hlen]
      omega
    dsimp only
    rw [if_neg hcond]
    have h1 : s.length - 1 + 1 = s.length := by omega
    rw [h1]
    have := List.take_left s (List.replicate k c)
    exact this

theorem fixedString_none_roundtrip (L : Nat) (s : Bytes) (hs : s.length = L) :
    RoundTrips (fixedString L padNone) s := by
  refine ⟨s, ?_, ?_⟩
  · show padNoneAdd s L = .ok s
    rw [padNoneAdd, if_neg (by omega)]
  · intro extra
    show (if L ≤ (s ++ extra).length then _ else _) = _
    rw [if_pos (by simp [hs])]
    have htake := List.take_left s extra
    have hdrop := List.drop_left s extra
    rw [hs] at htake hdrop
    simp [htake, hdrop, padNone, padNoneStrip]

theorem fixedString_pad_roundtrip (L c : Nat) (s : Bytes) (hle : s.length ≤ L)
    (hlast : ∀ b, s.getLast? = some b → b ≠ c) :
    RoundTrips (fixedString L (bytePadder c)) s := by
  set out := s ++ List.replicate (L - s.length) c with hout
  have hlen : out.length = L := by
    rw [hout]
    simp
    omega
  refine ⟨out, ?_, ?_⟩
  · show bytePadderAdd c s L = .ok out
    rw [bytePadderAdd]
    by_cases heq : s.length = L
    · rw [if_pos heq, hout, heq]
      simp
    · rw [if_neg heq, if_neg (by omega)]
  · intro extra
    show (if L ≤ (out ++ extra).length then _ else _) = _
    rw [if_pos (by simp [hlen])]
    have htake := List.take_left out extra
    have hdrop := List.drop_left out extra
    rw [hlen] at htake hdrop
    rw [htake, hdrop]
    show Except.ok (bytePadderStrip c out, extra) = _
    rw [hout, bytePadderStrip_append_replicate c s _ hlast]

theorem varchar_roundtrip (lenc : Codec Nat) (s : Bytes)
    (hlen : RoundTrips lenc s.length) : RoundTrips (varchar lenc) s := by
  obtain ⟨lb, hpack, hunpack⟩ := hlen
  refine ⟨lb ++ s, ?_, ?_⟩
  · show (match lenc.pack s.length with
          | .ok lenBytes => Except.ok (lenBytes ++ s)
          | .error e => Except.error e) = _
    rw [hpack]
  · intro extra
    show (match lenc.unpack ((lb ++ s) ++ extra) with
          | .ok (length, mid) => _
          | .error e => Except.error e) = _
    rw [List.append_assoc, hunpack (s ++ extra)]
    have htake := List.take_left s extra
    have hdrop := List.drop_left s extra
    simp only
    rw [if_pos (by simp), htake, hdrop]


/-! ## Round-trip composition lemmas -/

theorem compressedU_roundtrip (N : Nat) (order : Endian) (v : Nat)
    (hv : v < 2 ^ N) : RoundTrips (compressedU N order) v := by
  cases order with
  | little =>
    exact ⟨compressedPackLE v, rfl, fun extra => compressedLE_roundtrip N v hv extra⟩
  | big =>
    exact ⟨compressedPackBE v, rfl, fun extra => compressedBE_roundtrip N v hv extra⟩

theorem integralU_roundTrips (nbytes : Nat) (order : Endian) (v : Nat)
    (hv : v < 2 ^ (8 * nbytes)) : RoundTrips (integralU nbytes order) v :=
  ⟨integralPackU nbytes order v, rfl, fun extra => integralU_roundtrip nbytes order v hv extra⟩

theorem integralS_roundTrips (nbytes : Nat) (order : Endian) (v : Int)
    (hn : 0 < nbytes)
    (hlo : -(((2 ^ (8 * nbytes - 1) : Nat) : Int)) ≤ v)
    (hhi : v < ((2 ^ (8 * nbytes - 1) : Nat) : Int)) :
    RoundTrips (integralS nbytes order) v :=
  ⟨integralPackS nbytes order v, rfl,
    fun extra => integralS_roundtrip nbytes order v hn hlo hhi extra⟩

theorem formatNil_roundTrips : RoundTrips formatNil () :=
  ⟨[], rfl, fun _ => rfl⟩

theorem formatCons_roundTrips (c : Codec α) (f : Codec β) (a : α) (b : β)
    (ha : RoundTrips c a) (hb : RoundTrips f b) :
    RoundTrips (formatCons c f) (a, b) := by
  obtain ⟨oa, hpa, hua⟩ := ha
  obtain ⟨ob, hpb, hub⟩ := hb
  refine ⟨oa ++ ob, ?_, ?_⟩
  · show (match c.pack a with
          | .ok h => match f.pack b with
                     | .ok t => Except.ok (h ++ t)
                     | .error e => Except.error e
          | .error e => Except.error e) = _
    rw [hpa, hpb]
  · intro extra
    show (match c.unpack ((oa ++ ob) ++ extra) with
          | .ok (x, mid) => match f.unpack mid with
                            | .ok (y, rest) => Except.ok ((x, y), rest)
                            | .error e => Except.error e
          | .error e => Except.error e) = _
    rw [List.append_assoc, hua (ob ++ extra)]
    dsimp only
    rw [hub extra]

theorem formatUnpack_of_roundTrips (c : Codec α) (v : α) (out : Bytes)
    (hu : ∀ extra, c.unpack (out ++ extra) = .ok (v, extra)) :
    formatUnpack c out = .ok v := by
  have h := hu []
  rw [List.append_nil] at h
  rw [formatUnpack, h]

theorem seqPackLoop_roundtrip (e : Codec α) (l : List α)
    (hl : ∀ x ∈ l, RoundTrips e x) :
    ∀ acc, ∃ body, seqPackLoop e l acc = .ok (acc ++ body) ∧
      ∀ extra, seqUnpackLoop e l.length (body ++ extra) = .ok (l, extra) := by
  induction l with
  | nil =>
    intro acc
    refine ⟨[], ?_, fun extra => rfl⟩
    rw [seqPackLoop, List.append_nil]
  | cons x xs ih =>
    intro acc
    obtain ⟨p, hp, hu⟩ := hl x (by simp)
    obtain ⟨body, hpack, hunpack⟩ := ih (fun y hy => hl y (by simp [hy])) (acc ++ p)
    refine ⟨p ++ body, ?_, ?_⟩
    · rw [seqPackLoop, hp]
      dsimp only
      rw [hpack, List.append_assoc]
    · intro extra
      show (match e.unpack ((p ++ body) ++ extra) with
            | .ok (y, rest) => _
            | .error err => Except.error err) = _
      rw [List.append_assoc, hu (body ++ extra)]
      simp only
      rw [hunpack extra]

theorem sequence_roundTrips (e : Codec α) (lenc : Codec Nat) (l : List α)
    (hlen : RoundTrips lenc l.length) (hl : ∀ x ∈ l, RoundTrips e x) :
    RoundTrips (sequence e lenc) l := by
  obtain ⟨lb, hlp, hlu⟩ := hlen
  obtain ⟨body, hpack, hunpack⟩ := seqPackLoop_roundtrip e l hl lb
  refine ⟨lb ++ body, ?_, ?_⟩
  · show (match lenc.pack l.length with
          | .ok ret => seqPackLoop e l ret
          | .error err => Except.error err) = _
    rw [hlp]
    dsimp only
    rw [hpack]
  · intro extra
    show (match lenc.unpack ((lb ++ body) ++ extra) with
          | .ok (length, rest) => seqUnpackLoop e length rest
          | .error err => Except.error err) = _
    rw [List.append_assoc, hlu (body ++ extra)]
    simp only
    rw [hunpack extra]


/-! ## Cursor-contiguity lemmas -/

theorem consumes_integralU (nbytes : Nat) (order : Endian) :
    Consumes (integralUnpackU nbytes order) := by
  intro buf v rest h
  rw [integralUnpackU] at h
  split at h
  · simp only [Except.ok.injEq, Prod.mk.injEq] at h
    refine ⟨buf.take nbytes, ?_⟩
    rw [← h.2, List.take_append_drop]
  · exact absurd h (by simp)

theorem consumes_integralS (nbytes : Nat) (order : Endian) :
    Consumes (integralUnpackS nbytes order) := by
  intro buf v rest h
  rw [integralUnpackS] at h
  cases hu : integralUnpackU nbytes order buf with
  | ok p =>
    rw [hu] at h
    simp only [Except.ok.injEq, Prod.mk.injEq] at h
    exact consumes_integralU nbytes order buf p.1 rest (by rw [hu, ← h.2])
  | error e =>
    rw [hu] at h
    simp at h

theorem consumes_cUnpackLE (N : Nat) (buf : Bytes) :
    ∀ factor ret v rest, cUnpackLE N buf factor ret = .ok (v, rest) →
      ∃ pre, buf = pre ++ rest := by
  induction buf with
  | nil => intro factor ret v rest h; simp [cUnpackLE] at h
  | cons b t ih =>
    intro factor ret v rest h
    rw [cUnpackLE] at h
    split at h
    · simp at h
    · split at h
      · simp at h
      · split at h
        · simp only [Except.ok.injEq, Prod.mk.injEq] at h
          exact ⟨[b], by rw [← h.2]; rfl⟩
        · obtain ⟨pre, hpre⟩ := ih _ _ _ _ h
          exact ⟨b :: pre, by rw [List.cons_append, ← hpre]⟩

theorem consumes_cUnpackBE (N : Nat) (buf : Bytes) :
    ∀ ret v rest, cUnpackBE N buf ret = .ok (v, rest) →
      ∃ pre, buf = pre ++ rest := by
  induction buf with
  | nil => intro ret v rest h; simp [cUnpackBE] at h
  | cons b t ih =>
    intro ret v rest h
    rw [cUnpackBE] at h
    split at h
    · simp at h
    · split at h
      · simp only [Except.ok.injEq, Prod.mk.injEq] at h
        exact ⟨[b], by rw [← h.2]; rfl⟩
      · obtain ⟨pre, hpre⟩ := ih _ _ _ h
        exact ⟨b :: pre, by rw [List.cons_append, ← hpre]⟩

theorem consumes_compressedU (N : Nat) (order : Endian) :
    Consumes (compressedU N order).unpack := by
  intro buf v rest h
  cases order with
  | little => exact consumes_cUnpackLE N buf 1 0 v rest h
  | big => exact consumes_cUnpackBE N buf 0 v rest h

theorem consumes_compressedS (N : Nat) (order : Endian) :
    Consumes (compressedS N order).unpack := by
  intro buf v rest h
  show ∃ pre, buf = pre ++ rest
  have h2 : compressedUnpackS N order buf = .ok (v, rest) := h
  unfold compressedUnpackS at h2
  cases order with
  | little =>
    cases hu : compressedUnpackLE N buf with
    | ok p =>
      obtain ⟨z, r⟩ := p
      rw [hu] at h2
      simp only [Except.ok.injEq, Prod.mk.injEq] at h2
      exact consumes_cUnpackLE N buf 1 0 z rest (by unfold compressedUnpackLE at hu; rw [hu, h2.2])
    | error e => rw [hu] at h2; simp at h2
  | big =>
    cases hu : compressedUnpackBE N buf with
    | ok p =>
      obtain ⟨z, r⟩ := p
      rw [hu] at h2
      simp only [Except.ok.injEq, Prod.mk.injEq] at h2
      exact consumes_cUnpackBE N buf 0 z rest (by unfold compressedUnpackBE at hu; rw [hu, h2.2])
    | error e => rw [hu] at h2; simp at h2

theorem consumes_fixedString (L : Nat) (pad : Padding) :
    Consumes (fixedString L pad).unpack := by
  intro buf v rest h
  show ∃ pre, buf = pre ++ rest
  have h2 : (if L ≤ buf.length then
      Except.ok (α := Bytes × Bytes) (ε := Err) (pad.strip (buf.take L), buf.drop L)
    else .error (.outOfBounds "fixed_string")) = .ok (v, rest) := h
  split at h2
  · simp only [Except.ok.injEq, Prod.mk.injEq] at h2
    exact ⟨buf.take L, by rw [← h2.2, List.take_append_drop]⟩
  · simp at h2

theorem consumes_varchar (lenc : Codec Nat) (hlenc : Consumes lenc.unpack) :
    Consumes (varchar lenc).unpack := by
  intro buf v rest h
  show ∃ pre, buf = pre ++ rest
  have h2 : (match lenc.unpack buf with
             | .ok (length, mid) =>
               if length ≤ mid.length then
                 Except.ok (α := Bytes × Bytes) (ε := Err) (mid.take length, mid.drop length)
               else .error (.outOfBounds "varchar")
             | .error e => .error e) = .ok (v, rest) := h
  cases hu : lenc.unpack buf with
  | ok p =>
    obtain ⟨L, mid⟩ := p
    rw [hu] at h2
    dsimp only at h2
    obtain ⟨pre1, hpre1⟩ := hlenc buf L mid (by rw [hu])
    split at h2
    · simp only [Except.ok.injEq, Prod.mk.injEq] at h2
      refine ⟨pre1 ++ mid.take L, ?_⟩
      rw [List.append_assoc, ← h2.2, List.take_append_drop]
      exact hpre1
    · simp at h2
  | error e => rw [hu] at h2; simp at h2

theorem consumes_seqUnpackLoop (e : Codec α) (he : Consumes e.unpack) (n : Nat) :
    ∀ buf l rest, seqUnpackLoop e n buf = .ok (l, rest) → ∃ pre, buf = pre ++ rest := by
  induction n with
  | zero =>
    intro buf l rest h
    simp only [seqUnpackLoop, Except.ok.injEq, Prod.mk.injEq] at h
    exact ⟨[], by rw [← h.2]; rfl⟩
  | succ n ih =>
    intro buf l rest h
    rw [seqUnpackLoop] at h
    cases hu : e.unpack buf with
    | ok p =>
      obtain ⟨x, r1⟩ := p
      rw [hu] at h
      dsimp only at h
      obtain ⟨pre1, hpre1⟩ := he buf x r1 (by rw [hu])
      cases hloop : seqUnpackLoop e n r1 with
      | ok q =>
        rw [hloop] at h
        simp only [Except.ok.injEq, Prod.mk.injEq] at h
        obtain ⟨pre2, hpre2⟩ := ih r1 q.1 rest (by rw [hloop, ← h.2])
        exact ⟨pre1 ++ pre2, by rw [List.append_assoc, ← hpre2]; exact hpre1⟩
      | error err => rw [hloop] at h; simp at h
    | error err => rw [hu] at h; simp at h

theorem consumes_sequence (e : Codec α) (lenc : Codec Nat)
    (he : Consumes e.unpack) (hlenc : Consumes lenc.unpack) :
    Consumes (sequence e lenc).unpack := by
  intro buf v rest h
  show ∃ pre, buf = pre ++ rest
  have h2 : (match lenc.unpack buf with
             | .ok (length, r) => seqUnpackLoop e length r
             | .error err => .error err) = .ok (v, rest) := h
  cases hu : lenc.unpack buf with
  | ok p =>
    rw [hu] at h2
    obtain ⟨pre1, hpre1⟩ := hlenc buf p.1 p.2 (by rw [hu])
    obtain ⟨pre2, hpre2⟩ := consumes_seqUnpackLoop e he p.1 p.2 v rest h2
    exact ⟨pre1 ++ pre2, by rw [List.append_assoc, ← hpre2]; exact hpre1⟩
  | error err => rw [hu] at h2; simp at h2

theorem consumes_formatNil : Consumes formatNil.unpack := by
  intro buf v rest h
  simp only [formatNil, Except.ok.injEq, Prod.mk.injEq] at h
  exact ⟨[], by rw [← h.2]; rfl⟩

theorem consumes_currentIterator : Consumes currentIterator.unpack := by
  intro buf v rest h
  simp only [currentIterator, Except.ok.injEq, Prod.mk.injEq] at h
  exact ⟨[], by rw [← h.2]; rfl⟩

theorem formatCons_unpack_iff (c : Codec α) (f : Codec β) (buf : Bytes)
    (a : α) (b : β) (rest : Bytes) :
    (formatCons c f).unpack buf = .ok ((a, b), rest) ↔
      ∃ mid, c.unpack buf = .ok (a, mid) ∧ f.unpack mid = .ok (b, rest) := by
  constructor
  · intro h
    have h2 : (match c.unpack buf with
               | .ok (x, mid) =>
                 match f.unpack mid with
                 | .ok (y, r) => Except.ok (α := (α × β) × Bytes) (ε := Err) ((x, y), r)
                 | .error e => .error e
               | .error e => .error e) = .ok ((a, b), rest) := h
    cases hu : c.unpack buf with
    | ok p =>
      obtain ⟨x, mid⟩ := p
      rw [hu] at h2
      dsimp only at h2
      cases hf : f.unpack mid with
      | ok q =>
        obtain ⟨y, r⟩ := q
        rw [hf] at h2
        simp only [Except.ok.injEq, Prod.mk.injEq] at h2
        obtain ⟨⟨h1, hb⟩, hr⟩ := h2
        subst h1
        subst hb
        subst hr
        exact ⟨mid, rfl, hf⟩
      | error e => rw [hf] at h2; simp at h2
    | error e => rw [hu] at h2; simp at h2
  · rintro ⟨mid, h1, h2⟩
    show (match c.unpack buf with
          | .ok (x, m) =>
            match f.unpack m with
            | .ok (y, r) => Except.ok (α := (α × β) × Bytes) (ε := Err) ((x, y), r)
            | .error e => .error e
          | .error e => .error e) = _
    rw [h1]
    dsimp only
    rw [h2]

theorem consumes_formatCons (c : Codec α) (f : Codec β)
    (hc : Consumes c.unpack) (hf : Consumes f.unpack) :
    Consumes (formatCons c f).unpack := by
  intro buf v rest h
  obtain ⟨mid, h1, h2⟩ := (formatCons_unpack_iff c f buf v.1 v.2 rest).mp (by rw [← h])
  obtain ⟨pre1, hpre1⟩ := hc buf v.1 mid h1
  obtain ⟨pre2, hpre2⟩ := hf mid v.2 rest h2
  exact ⟨pre1 ++ pre2, by rw [List.append_assoc, ← hpre2]; exact hpre1⟩


/-! ## Zigzag and pack-shape lemmas -/

theorem zigzag_zero (N : Nat) : zigzag N 0 = 0 := by
  simp [zigzag]

theorem zigzag_neg_one (N : Nat) (hN : 1 ≤ N) : zigzag N (-1) = 1 := by
  rw [zigzag, if_neg (by norm_num)]
  have h1 : ((-2 : Int) * (-1) - 1).toNat = 1 := by decide
  rw [h1]
  have hlt : (1 : Nat) < 2 ^ N := by
    calc (1 : Nat) < 2 ^ 1 := by decide
    _ ≤ 2 ^ N := Nat.pow_le_pow_right (by decide) hN
  exact Nat.mod_eq_of_lt hlt

theorem zigzag_one (N : Nat) (hN : 2 ≤ N) : zigzag N 1 = 2 := by
  rw [zigzag, if_pos (by norm_num)]
  have h1 : ((2 : Int) * 1).toNat = 2 := by decide
  rw [h1]
  have hlt : (2 : Nat) < 2 ^ N := by
    calc (2 : Nat) < 2 ^ 2 := by decide
    _ ≤ 2 ^ N := Nat.pow_le_pow_right (by decide) hN
  exact Nat.mod_eq_of_lt hlt

theorem payloadDigits_ne_nil (v : Nat) (hv : v ≠ 0) : payloadDigits v ≠ [] := by
  rw [payloadDigits, if_neg hv]
  simp

theorem fromDigitsLE_payloadDigits (v : Nat) :
    fromDigitsLE (payloadDigits v) = v := by
  induction v using Nat.strong_induction_on with
  | _ v ih =>
  by_cases hv : v = 0
  · rw [payloadDigits, if_pos hv, fromDigitsLE, hv]
  · rw [payloadDigits, if_neg hv, fromDigitsLE,
      ih (v / 128) (Nat.div_lt_self (Nat.pos_of_ne_zero hv) (by decide))]
    omega

theorem payloadDigits_getLast (v : Nat) (hv : v ≠ 0) :
    ∃ d, (payloadDigits v).getLast? = some d ∧ d ≠ 0 := by
  induction v using Nat.strong_induction_on with
  | _ v ih =>
  rw [payloadDigits, if_neg hv]
  by_cases hq : v / 128 = 0
  · have hvlt : v < 128 := by
      rcases Nat.lt_or_ge v 128 with h | h
      · exact h
      · exact absurd hq (by
          have := Nat.div_le_div_right (c := 128) h
          simp at this
          omega)
    rw [payloadDigits, if_pos hq]
    exact ⟨v % 128, by simp, by rw [Nat.mod_eq_of_lt hvlt]; exact hv⟩
  · obtain ⟨d, hd, hd0⟩ := ih (v / 128)
      (Nat.div_lt_self (Nat.pos_of_ne_zero hv) (by decide)) hq
    refine ⟨d, ?_, hd0⟩
    have hne := payloadDigits_ne_nil (v / 128) hq
    cases hp : payloadDigits (v / 128) with
    | nil => exact absurd hp hne
    | cons y t =>
      rw [hp] at hd
      rw [List.getLast?_cons_cons]
      exact hd

theorem clearLast_map_lor (l : Bytes) (dlast : Nat) (hlt : ∀ d ∈ l, d < 128)
    (hlast : l.getLast? = some dlast) :
    clearLast (l.map (· ||| 128)) =
      (l.dropLast.map (fun d => d + 128)) ++ [dlast] := by
  induction l with
  | nil => simp at hlast
  | cons b t ih =>
    cases t with
    | nil =>
      simp only [List.getLast?_singleton, Option.some.injEq] at hlast
      subst hlast
      have hb : b < 128 := hlt b (by simp)
      show clearLast [b ||| 128] = _
      show [(b ||| 128) &&& 127] = _
      rw [lor128_and127 _ hb]
      rfl
    | cons c2 t2 =>
      rw [List.getLast?_cons_cons] at hlast
      have hb : b < 128 := hlt b (by simp)
      have hmapne : (c2 :: t2).map (· ||| 128) ≠ [] := by simp
      rw [List.map_cons, clearLast_cons_of_ne_nil _ _ hmapne,
        ih (fun d hd => hlt d (by simp [hd])) hlast]
      rw [lor128_eq_add _ hb]
      rfl

theorem compressedPackLE_structure (v : Nat) (hv : 0 < v) :
    ∃ ds dlast, (∀ d ∈ ds, d < 128) ∧ ds.getLast? = some dlast ∧ dlast ≠ 0 ∧
      fromDigitsLE ds = v ∧
      compressedPackLE v = ds.dropLast.map (fun d => d + 128) ++ [dlast] := by
  obtain ⟨d, hd, hd0⟩ := payloadDigits_getLast v (by omega)
  refine ⟨payloadDigits v, d, payloadDigits_lt v, hd, hd0,
    fromDigitsLE_payloadDigits v, ?_⟩
  rw [compressedPackLE, if_neg (by omega), cDigits_eq_map,
    clearLast_map_lor _ d (payloadDigits_lt v) hd]

theorem compressedPackLE_ne_nil (v : Nat) : compressedPackLE v ≠ [] := by
  by_cases hv : v = 0
  · rw [compressedPackLE, if_pos hv]
    simp
  · obtain ⟨ds, dlast, _, _, _, _, hpack⟩ :=
      compressedPackLE_structure v (Nat.pos_of_ne_zero hv)
    rw [hpack]
    simp


/-! ## Claim theorems -/

/-- C1: the round-trip law.  The positive half evaluates the example
driver's four-element format: packing `(1, "a", 300, "abc")` yields the
bytes `00 01 61 20 AC 02 03 61 62 63` and unpacking them returns the
tuple.  The claim's universal statement fails on the code, however: the
signed (zigzag) compressed codec is not inverted by its unpack, because
`unpack` computes `(zigzag >> 1) ^ (-(zigzag & 1))` on the SIGNED
`data_type`, an arithmetic shift that keeps the top bit.  At width 8,
`pack(64)` yields `80 01` (zigzag 128) and `unpack(80 01)` returns `-64`,
not `64`. -/
theorem claim_C1 :
    (exampleFormat.pack (1, ([97], (300, ([97, 98, 99], ())))) =
        .ok [0, 1, 97, 32, 172, 2, 3, 97, 98, 99] ∧
      formatUnpack exampleFormat [0, 1, 97, 32, 172, 2, 3, 97, 98, 99] =
        .ok (1, ([97], (300, ([97, 98, 99], ()))))) ∧
    ((compressedS 8 .little).pack 64 = .ok [128, 1] ∧
      (compressedS 8 .little).unpack [128, 1] = .ok (-64, []) ∧
      ((-64 : Int) ≠ 64)) := by
  refine ⟨⟨by decide, by decide⟩, by decide, by decide, by decide⟩

/-- C2: the zigzag signed codec agrees with the unsigned codec on small
values, at any width `N ≥ 2` and either byte order: `pack 0 = pack_u 0`,
`pack (-1) = pack_u 1`, `pack 1 = pack_u 2`.  The final part of the claim
fails on the code: `min_signed` does not round-trip.  At width 8,
`pack(-128)` encodes zigzag `255`, and unpack's arithmetic shift on the
signed type turns it into `0`, not `-128` (the same failure occurs at
every width: the decoded zigzag of `min_signed` has its top bit set). -/
theorem claim_C2 (N : Nat) (order : Endian) (hN : 2 ≤ N) :
    ((compressedS N order).pack 0 = (compressedU N order).pack 0 ∧
      (compressedS N order).pack (-1) = (compressedU N order).pack 1 ∧
      (compressedS N order).pack 1 = (compressedU N order).pack 2) ∧
    (compressedUnpackS 8 .little (compressedPackS 8 .little (-128)) = .ok (0, []) ∧
      ((0 : Int) ≠ -128)) := by
  refine ⟨⟨?_, ?_, ?_⟩, by decide, by decide⟩
  · cases order <;>
      simp [compressedS, compressedU, compressedPackS, zigzag_zero N]
  · cases order <;>
      simp [compressedS, compressedU, compressedPackS, zigzag_neg_one N (by omega)]
  · cases order <;>
      simp [compressedS, compressedU, compressedPackS, zigzag_one N hN]

theorem claim_C2_witness :
    (compressedS 8 .little).pack 0 = (compressedU 8 .little).pack 0 ∧
    (compressedS 8 .big).pack (-1) = (compressedU 8 .big).pack 1 :=
  ⟨(claim_C2 8 .little (by decide)).1.1, (claim_C2 8 .big (by decide)).1.2.1⟩

/-- C3: for every declared width `N`, both variable-length unsigned
unpacks succeed on the encoding of the maximal value `2^N - 1`; the
16-bit codec decodes the 32-bit codec's 3-byte encoding of `65535` to
`65535` and raises `overlong(65535)` on the encoding of `65536`.  The
claim's blanket statement — overlong on ANY input whose decoded value
exceeds the width — fails on the code: on the 4-byte input `80 80 80 01`
(decoded value `2^21`) the 16-bit codec's `factor` has wrapped to zero
by the fourth byte, so the guard `max / factor` divides by zero
(undefined behaviour, `Err.divByZero` in the embedding) instead of
raising `overlong`. -/
theorem claim_C3 :
    (∀ N : Nat, compressedUnpackLE N (compressedPackLE (2 ^ N - 1)) = .ok (2 ^ N - 1, []) ∧
        compressedUnpackBE N (compressedPackBE (2 ^ N - 1)) = .ok (2 ^ N - 1, [])) ∧
    compressedPackLE 65535 = [255, 255, 3] ∧
    compressedPackLE 65536 = [128, 128, 4] ∧
    compressedUnpackLE 16 (compressedPackLE 65535) = .ok (65535, []) ∧
    compressedUnpackLE 16 (compressedPackLE 65536) = .error (.overlong 65535) ∧
    compressedUnpackLE 16 [128, 128, 128, 1] = .error .divByZero := by
  refine ⟨?_, by decide, by decide, by decide, by decide, by decide⟩
  intro N
  have hlt : 2 ^ N - 1 < 2 ^ N := by
    have : 0 < 2 ^ N := Nat.pos_pow_of_pos N (by decide)
    omega
  constructor
  · have h := compressedLE_roundtrip N (2 ^ N - 1) hlt []
    rwa [List.append_nil] at h
  · have h := compressedBE_roundtrip N (2 ^ N - 1) hlt []
    rwa [List.append_nil] at h

/-- C4: on all-`0x80` input the little-endian unpack raises
`out_of_bounds` while the buffer runs out before `factor` wraps
(3 bytes at width 16, 10 at width 64), but the claim fails on the code
for longer buffers: once `factor` has wrapped to zero (byte 4 at width
16, byte 3 at width 8, byte 6 at width 32, byte 11 at width 64) the
guard `max / factor` is a division by zero — undefined behaviour, not
`out_of_bounds` or `overlong`. -/
theorem claim_C4 :
    compressedUnpackLE 16 (List.replicate 3 128) =
      .error (.outOfBounds "compressed integer") ∧
    compressedUnpackLE 16 (List.replicate 4 128) = .error .divByZero ∧
    compressedUnpackLE 64 (List.replicate 10 128) =
      .error (.outOfBounds "compressed integer") ∧
    compressedUnpackLE 64 (List.replicate 11 128) = .error .divByZero ∧
    compressedUnpackLE 8 (List.replicate 3 128) = .error .divByZero ∧
    compressedUnpackLE 32 (List.replicate 6 128) = .error .divByZero := by
  refine ⟨by decide, by decide, by decide, by decide, by decide, by decide⟩

/-- C5: the strict unpack (modelled from the spec, see
`strictUnpack`): when the element codecs leave the cursor short of the
buffer end it raises `incomplete_parse(bytes_consumed, total_bytes)`,
and with exactly one unconsumed trailing byte it raises
`incomplete_parse(n-1, n)`; when the cursor reaches the end it returns
the decoded value. -/
theorem claim_C5 (α : Type) (c : Codec α) (buf : Bytes) (v : α) (rest : Bytes)
    (h : c.unpack buf = .ok (v, rest)) :
    (rest = [] → strictUnpack c buf = .ok v) ∧
    (rest ≠ [] → strictUnpack c buf =
      .error (.incompleteParse (buf.length - rest.length) buf.length)) ∧
    (∀ b, rest = [b] → strictUnpack c buf =
      .error (.incompleteParse (buf.length - 1) buf.length)) := by
  unfold strictUnpack
  rw [h]
  refine ⟨?_, ?_, ?_⟩
  · intro hr
    dsimp only
    rw [if_pos hr]
  · intro hr
    dsimp only
    rw [if_neg hr]
  · intro b hr
    subst hr
    dsimp only
    rw [if_neg (by simp)]
    rfl

theorem claim_C5_witness :
    strictUnpack (integralU 2 .little) [1, 2, 3] = .error (.incompleteParse 2 3) := by
  have h := claim_C5 Nat (integralU 2 .little) [1, 2, 3] 513 [3] (by decide)
  exact h.2.1 (by decide)

/-- C6: `fixed_string` with the `none` padding raises `invalid_input`
exactly when the packed string's length differs from the declared
length, and otherwise returns it unchanged; `fixed_string<4, space>`
packs `"ab"` to `"ab  "`, unpacks `"ab  "` to `"ab"`, and raises
`invalid_input` on any string longer than 4. -/
theorem claim_C6 :
    (∀ (L : Nat) (s : Bytes),
      (fixedString L padNone).pack s =
        if s.length = L then .ok s
        else .error (.invalidInput ("Packed string should be of length " ++ toString L))) ∧
    (fixedString 4 padSpace).pack [97, 98] = .ok [97, 98, 32, 32] ∧
    (fixedString 4 padSpace).unpack [97, 98, 32, 32] = .ok ([97, 98], []) ∧
    (∀ s : Bytes, 4 < s.length → (fixedString 4 padSpace).pack s =
      .error (.invalidInput "Can't pack string longer than fixed length")) := by
  refine ⟨?_, by decide, by decide, ?_⟩
  · intro L s
    show padNoneAdd s L = _
    rw [padNoneAdd]
    by_cases h : s.length = L
    · rw [if_neg (by omega), if_pos h]
    · rw [if_pos h, if_neg h]
  · intro s hs
    show bytePadderAdd 32 s 4 = _
    rw [bytePadderAdd, if_neg (by omega), if_pos (by omega)]

theorem claim_C6_witness :
    (fixedString 4 padNone).pack [1, 2, 3] =
      .error (.invalidInput "Packed string should be of length 4") ∧
    (fixedString 4 padSpace).pack [1, 2, 3, 4, 5] =
      .error (.invalidInput "Can't pack string longer than fixed length") := by
  constructor
  · have h := claim_C6.1 4 [1, 2, 3]
    rw [h]
    rfl
  · exact claim_C6.2.2.2 [1, 2, 3, 4, 5] (by decide)

/-- C7: every unpack that needs more bytes than remain raises
`out_of_bounds` with the name of the type being decoded: the
fixed-width integer codec (unsigned and signed) with fewer than
`width/8` bytes remaining raises `out_of_bounds("integer")`; varchar,
after its length encoder decodes `L`, raises `out_of_bounds("varchar")`
when fewer than `L` bytes remain and otherwise consumes exactly `L`
bytes and returns them; `fixed_string` likewise raises
`out_of_bounds("fixed_string")`. -/
theorem claim_C7 :
    (∀ (nbytes : Nat) (order : Endian) (buf : Bytes), buf.length < nbytes →
      integralUnpackU nbytes order buf = .error (.outOfBounds "integer")) ∧
    (∀ (nbytes : Nat) (order : Endian) (buf : Bytes), buf.length < nbytes →
      integralUnpackS nbytes order buf = .error (.outOfBounds "integer")) ∧
    (∀ (lenc : Codec Nat) (buf : Bytes) (L : Nat) (mid : Bytes),
      lenc.unpack buf = .ok (L, mid) →
      (varchar lenc).unpack buf =
        if L ≤ mid.length then .ok (mid.take L, mid.drop L)
        else .error (.outOfBounds "varchar")) ∧
    (∀ (L : Nat) (pad : Padding) (buf : Bytes), buf.length < L →
      (fixedString L pad).unpack buf = .error (.outOfBounds "fixed_string")) := by
  refine ⟨?_, ?_, ?_, ?_⟩
  · intro nbytes order buf hlen
    rw [integralUnpackU, if_neg (by omega)]
  · intro nbytes order buf hlen
    rw [integralUnpackS, integralUnpackU, if_neg (by omega)]
  · intro lenc buf L mid h
    show (match lenc.unpack buf with
          | .ok (length, m) =>
            if length ≤ m.length then
              Except.ok (α := Bytes × Bytes) (ε := Err) (m.take length, m.drop length)
            else .error (.outOfBounds "varchar")
          | .error e => .error e) = _
    rw [h]
  · intro L pad buf hlen
    show (if L ≤ buf.length then
            Except.ok (α := Bytes × Bytes) (ε := Err) (pad.strip (buf.take L), buf.drop L)
          else .error (.outOfBounds "fixed_string")) = _
    rw [if_neg (by omega)]

theorem claim_C7_witness :
    integralUnpackU 4 .little [1, 2, 3] = .error (.outOfBounds "integer") ∧
    (varchar (integralU 4 .little)).unpack [3, 0, 0, 0, 97] =
      .error (.outOfBounds "varchar") := by
  constructor
  · exact claim_C7.1 4 .little [1, 2, 3] (by decide)
  · have h := claim_C7.2.2.1 (integralU 4 .little) [3, 0, 0, 0, 97] 3 [97] (by decide)
    rw [h]
    rfl

/-- C8: variable-length unsigned little-endian pack emits at least one
byte for every value; `pack 0 = 00`; for `v > 0` the output is the
base-128 digit string of `v` (least significant first, final digit
nonzero, value `v`) with `0x80` added to every byte but the last;
`pack 128 = 80 01` and it decodes back to `128`. -/
theorem claim_C8 :
    compressedPackLE 0 = [0] ∧
    (∀ v : Nat, compressedPackLE v ≠ []) ∧
    (∀ v : Nat, 0 < v → ∃ ds dlast, (∀ d ∈ ds, d < 128) ∧
      ds.getLast? = some dlast ∧ dlast ≠ 0 ∧ fromDigitsLE ds = v ∧
      compressedPackLE v = ds.dropLast.map (fun d => d + 128) ++ [dlast]) ∧
    compressedPackLE 128 = [128, 1] ∧
    compressedUnpackLE 64 [128, 1] = .ok (128, []) := by
  exact ⟨by decide, compressedPackLE_ne_nil, compressedPackLE_structure,
    by decide, by decide⟩

theorem claim_C8_witness :
    ∃ ds dlast, (∀ d ∈ ds, d < 128) ∧
      ds.getLast? = some dlast ∧ dlast ≠ 0 ∧ fromDigitsLE ds = 300 ∧
      compressedPackLE 300 = ds.dropLast.map (fun d => d + 128) ++ [dlast] :=
  claim_C8.2.2.1 300 (by decide)

/-- C9: the read cursor is monotonically non-decreasing and contiguous:
every element codec's successful unpack returns a suffix of its input
buffer (`Consumes`: the bytes consumed are a contiguous prefix starting
at the incoming cursor), the combinators preserve this, and the format
combinator hands the next codec exactly the cursor the previous codec
left behind (the `formatCons` threading equivalence). -/
theorem claim_C9 :
    (∀ (nbytes : Nat) (order : Endian), Consumes (integralUnpackU nbytes order)) ∧
    (∀ (nbytes : Nat) (order : Endian), Consumes (integralUnpackS nbytes order)) ∧
    (∀ (N : Nat) (order : Endian), Consumes (compressedU N order).unpack) ∧
    (∀ (N : Nat) (order : Endian), Consumes (compressedS N order).unpack) ∧
    (∀ (L : Nat) (pad : Padding), Consumes (fixedString L pad).unpack) ∧
    (∀ lenc : Codec Nat, Consumes lenc.unpack → Consumes (varchar lenc).unpack) ∧
    (∀ (α : Type) (e : Codec α) (lenc : Codec Nat), Consumes e.unpack →
      Consumes lenc.unpack → Consumes (sequence e lenc).unpack) ∧
    Consumes formatNil.unpack ∧
    Consumes currentIterator.unpack ∧
    (∀ (α β : Type) (c : Codec α) (f : Codec β), Consumes c.unpack →
      Consumes f.unpack → Consumes (formatCons c f).unpack) ∧
    (∀ (α β : Type) (c : Codec α) (f : Codec β) (buf : Bytes) (a : α) (b : β)
      (rest : Bytes),
      (formatCons c f).unpack buf = .ok ((a, b), rest) ↔
        ∃ mid, c.unpack buf = .ok (a, mid) ∧ f.unpack mid = .ok (b, rest)) :=
  ⟨consumes_integralU, consumes_integralS, consumes_compressedU, consumes_compressedS,
    consumes_fixedString, consumes_varchar,
    fun _ e lenc he hl => consumes_sequence e lenc he hl,
    consumes_formatNil, consumes_currentIterator,
    fun _ _ c f hc hf => consumes_formatCons c f hc hf,
    fun _ _ c f buf a b rest => formatCons_unpack_iff c f buf a b rest⟩

theorem claim_C9_witness :
    ∃ pre, ([1, 2, 3] : Bytes) = pre ++ [3] :=
  claim_C9.1 2 .little [1, 2, 3] 513 [3] (by decide)

/-- C10: the little-endian variable-length unpack accepts non-minimal
encodings: `00` and `80 00` are distinct byte strings that both decode
to `0`, and since `pack 0 = 00`, pack is not a left inverse of unpack
on accepted inputs. -/
theorem claim_C10 :
    compressedUnpackLE 64 [0] = .ok (0, []) ∧
    compressedUnpackLE 64 [128, 0] = .ok (0, []) ∧
    ([0] : Bytes) ≠ [128, 0] ∧
    compressedPackLE 0 = [0] ∧
    compressedPackLE 0 ≠ [128, 0] := by
  refine ⟨by decide, by decide, by decide, by decide, by decide⟩


end Pack
